import Mathlib

/-!
Verification of the `IdentifyPrimAutomatic` module
(`src/pyCellProfiler/CellProfiler/Modules/IdentifyPrimAutomatic.py`).

The module's `Run` method is embedded shallowly below:
* images are flat `List ℚ` arrays in row-major order together with their
  `rows`/`cols` dimensions (3-channel images carry a channel count);
* the boolean mask is a flat `List Bool`;
* `scipy.ndimage.label` (4-connectivity connected-component labeling,
  labels assigned 1.. in row-major scan order) and
  `scipy.ndimage.center_of_mass` are modelled as executable functions;
* `CellProfiler.Math.Otsu.Otsu` is not part of the provided sources, so it
  is modelled from the spec (see `otsuRawValue` and `Otsu` below).

`Run` itself is translated line by line from the source: it averages a
3-dimensional image over the channel axis, computes the Otsu threshold of
the whole (unmasked) image constrained to the configured threshold range,
forms `binary_image = (img >= threshold) ∧ mask`, labels the connected
components, and records the count, the threshold and the per-object
centers of mass (axis 0 into `Location_Center_X`, axis 1 into
`Location_Center_Y`).  The display path (`frame`) has no effect on the
returned data and is omitted.
-/

/-- Total list lookup with a default value; `getd d l q` is `l[q]` when
`q < l.length` and `d` otherwise.  This models numpy array indexing for the
flat row-major arrays used throughout. -/
def getd {α : Type} (d : α) : List α → Nat → α
  | [], _ => d
  | x :: _, 0 => x
  | _ :: xs, n + 1 => getd d xs n

/-- Insert into a sorted list of rationals (ascending). -/
def insertQ (x : ℚ) : List ℚ → List ℚ
  | [] => [x]
  | y :: ys => if x ≤ y then x :: y :: ys else y :: insertQ x ys

/-- Insertion sort for rationals, ascending. -/
def sortQ : List ℚ → List ℚ :=
  List.foldr insertQ []

/-- One scan step of the Otsu split search.  `n` is the total pixel count,
`total` the total intensity sum; the list argument is the still-unprocessed
tail of the sorted data, `k` the size of the left class, `sl` its sum, and
`best` the best `(score, threshold)` pair so far.  The score of a split is
proportional to the between-class variance
`w0 * w1 * (mu0 - mu1)^2`. -/
def otsuGo (n : Nat) (total : ℚ) : List ℚ → Nat → ℚ → ℚ × ℚ → ℚ × ℚ
  | [], _, _, best => best
  | t :: rest, k, sl, best =>
    let v : ℚ := (sl * ((n - k : Nat) : ℚ) - (total - sl) * (k : ℚ)) ^ 2 /
      ((k : ℚ) * ((n - k : Nat) : ℚ))
    otsuGo n total rest (k + 1) (sl + t) (if best.1 < v then (v, t) else best)

/-- Modelled from the spec: the raw Otsu threshold of
`CellProfiler.Math.Otsu.Otsu` (the module `CellProfiler.Math.Otsu` is not
among the provided sources).  Per the spec it searches the split point
maximizing the between-class variance of the two classes of the sorted
intensity data, and it fails — the spec's `DegenerateImageError`, an
explicit `none` here — when no statistic is computable: when there is no
data at all, or when the data is flat (all intensities equal, "no usable
histogram", spec section 7), since a constant histogram admits no split.
The spec's order-preserving log transform of the intensities is not
reproduced; the split search runs on the raw sorted values.  The returned
threshold is the smallest value of the upper class, so that
`img >= threshold` selects exactly that class. -/
def otsuRawValue (data : List ℚ) : Option ℚ :=
  match sortQ data with
  | [] => none
  | x :: xs =>
    if xs.all fun y => y == x then none
    else some ((otsuGo (xs.length + 1) (x + xs.sum) xs 1 x (-1, x)).2)

/-- Constrain a computed threshold into the configured `[lo, hi]` range,
as the spec prescribes for the threshold bounds handed to
`CellProfiler.Math.Otsu.Otsu` by `Run`. -/
def clampThreshold (t lo hi : ℚ) : ℚ :=
  if t < lo then lo else if hi < t then hi else t

/-- Modelled from the spec: `CellProfiler.Math.Otsu.Otsu(img, lo, hi)` as
called from `Run` — the raw Otsu split of all pixels handed to it, clamped
into `[lo, hi]`.  Note the call site in `Run` passes only the image and
the two bounds: the mask is not an argument. -/
def Otsu (data : List ℚ) (lo hi : ℚ) : Option ℚ :=
  (otsuRawValue data).map fun raw => clampThreshold raw lo hi

/-- Flat index of the pixel `(row, col)` in a row-major array with `cols`
columns. -/
def idx (cols : Nat) (p : Nat × Nat) : Nat :=
  p.1 * cols + p.2

/-- The 4-connected neighbors of a pixel, clipped to the image bounds
(the default `scipy.ndimage.label` structuring element). -/
def neighbors (rows cols : Nat) (p : Nat × Nat) : List (Nat × Nat) :=
  (if p.1 + 1 < rows then [(p.1 + 1, p.2)] else []) ++
  (if 0 < p.1 then [(p.1 - 1, p.2)] else []) ++
  (if p.2 + 1 < cols then [(p.1, p.2 + 1)] else []) ++
  (if 0 < p.2 then [(p.1, p.2 - 1)] else [])

/-- Depth-first flood fill used to model one component of
`scipy.ndimage.label`: pop a pixel from the stack; if it is foreground and
still unlabeled, write `lab` there and push its neighbors.  `fuel` bounds
the recursion; entries are popped at most `1 + 4 * (labeled pixels)` times,
so the fuel supplied by `labelScan` always suffices. -/
def floodFill (b : List Bool) (rows cols lab : Nat) :
    Nat → List (Nat × Nat) → List Nat → List Nat
  | 0, _, m => m
  | _ + 1, [], m => m
  | fuel + 1, p :: stk, m =>
    if getd false b (idx cols p) = true ∧ getd 0 m (idx cols p) = 0 then
      floodFill b rows cols lab fuel (neighbors rows cols p ++ stk)
        (m.set (idx cols p) lab)
    else
      floodFill b rows cols lab fuel stk m

/-- Row-major scan of `scipy.ndimage.label`: each still-unlabeled
foreground pixel starts a new component with the next label. -/
def labelScan (b : List Bool) (rows cols : Nat) :
    List Nat → List Nat → Nat → List Nat × Nat
  | [], m, cnt => (m, cnt)
  | q :: qs, m, cnt =>
    if getd false b q = true ∧ getd 0 m q = 0 then
      labelScan b rows cols qs
        (floodFill b rows cols (cnt + 1) (4 * (rows * cols) + 5)
          [(q / cols, q % cols)] m)
        (cnt + 1)
    else
      labelScan b rows cols qs m cnt

/-- Model of `scipy.ndimage.label` on a flat `rows × cols` boolean image:
returns the flat label map and the number of components found. -/
def ndimageLabel (b : List Bool) (rows cols : Nat) : List Nat × Nat :=
  labelScan b rows cols (List.range (rows * cols))
    (List.replicate (rows * cols) 0) 0

/-- The flat indices carrying label `k` in a label map. -/
def regionIdxs (labeled : List Nat) (k : Nat) : List Nat :=
  (List.range labeled.length).filter fun q => getd 0 labeled q == k

/-- Axis-0 (row) coordinate of the center of mass of label `k`, as
`scipy.ndimage.center_of_mass(numpy.ones(shape), labeled, k)` computes it:
the mean of the row indices of the pixels of the region. -/
def comRow (labeled : List Nat) (cols k : Nat) : ℚ :=
  (((regionIdxs labeled k).map fun q => ((q / cols : Nat) : ℚ)).sum) /
    (((regionIdxs labeled k).length : Nat) : ℚ)

/-- Axis-1 (column) coordinate of the center of mass of label `k`. -/
def comCol (labeled : List Nat) (cols k : Nat) : ℚ :=
  (((regionIdxs labeled k).map fun q => ((q % cols : Nat) : ℚ)).sum) /
    (((regionIdxs labeled k).length : Nat) : ℚ)

/-- The image handed to `Run` by the image set: either a 2-dimensional
grayscale array or a 3-dimensional multichannel array (flat, row-major,
channel fastest). -/
inductive Image where
  | twoD (rows cols : Nat) (data : List ℚ)
  | threeD (rows cols channels : Nat) (data : List ℚ)

/-- The grayscale conversion `Run` applies to a 3-dimensional image:
`img = numpy.sum(img, 2) / img.shape[2]`, i.e. each output pixel is the
sum of its channel values divided by the channel count. -/
def gray3 (rows cols channels : Nat) (data : List ℚ) : List ℚ :=
  (List.range (rows * cols)).map fun q =>
    (((List.range channels).map fun k => getd 0 data (q * channels + k)).sum) /
      ((channels : Nat) : ℚ)

/-- The 2-dimensional grayscale image `Run` works on: the raw data for a
2-dimensional input, the channel average for a 3-dimensional one. -/
def Image.gray : Image → Nat × Nat × List ℚ
  | .twoD r c d => (r, c, d)
  | .threeD r c ch d => (r, c, gray3 r c ch d)

/-- Number of rows of the grayscale image seen by `Run`. -/
def grayRows (img : Image) : Nat := img.gray.1

/-- Number of columns of the grayscale image seen by `Run`. -/
def grayCols (img : Image) : Nat := img.gray.2.1

/-- Pixel data of the grayscale image seen by `Run`. -/
def grayData (img : Image) : List ℚ := img.gray.2.2

/-- The module's configuration variables, as read through the accessors of
`IdentifyPrimAutomatic` (`GetMinSize`, `GetMaxSize`, `GetExcludeSize`,
`GetMergeObjects`, `GetExcludeBorderObjects`,
`GetThresholdCorrectionFactor`, `GetMinThreshold`, `GetMaxThreshold`,
`GetFillHoles`). -/
structure Config where
  minSize : ℚ
  maxSize : ℚ
  excludeSize : Bool
  mergeObjects : Bool
  excludeBorder : Bool
  corrFactor : ℚ
  minThreshold : ℚ
  maxThreshold : ℚ
  fillHoles : Bool

/-- Everything `Run` produces: the label map attached to the object set
(`objects.Segmented`), the object count from `scipy.ndimage.label`, the
threshold, the two image-level measurement values, and the per-object
`Location_Center_X` / `Location_Center_Y` vectors. -/
structure RunResult where
  labeled : List Nat
  count : Nat
  threshold : ℚ
  countMeas : ℚ
  locX : List ℚ
  locY : List ℚ
  deriving DecidableEq

instance : Inhabited RunResult :=
  ⟨⟨[], 0, 0, 0, [], []⟩⟩

/-- The line `binary_image = numpy.logical_and((img >= threshold), mask)`
of `Run`, as a flat boolean image. -/
def runBinary (image : Image) (mask : List Bool) (threshold : ℚ) : List Bool :=
  (List.range (grayRows image * grayCols image)).map fun q =>
    decide (threshold ≤ getd 0 (grayData image) q) && getd false mask q

/-- The part of `Run` that follows a successful threshold computation:
`scipy.ndimage.label` on the binary image, the two image-level
measurements, the segmentation attached to the object set, and the
center-of-mass vectors over labels `1 .. object_count`
(`centers[:, 0]` becomes `Location_Center_X`, `centers[:, 1]` becomes
`Location_Center_Y`). -/
def runBody (image : Image) (mask : List Bool) (threshold : ℚ) : RunResult :=
  let cols := grayCols image
  let lc := ndimageLabel (runBinary image mask threshold) (grayRows image) cols
  { labeled := lc.1
    count := lc.2
    threshold := threshold
    countMeas := ((lc.2 : Nat) : ℚ)
    locX := (List.range lc.2).map fun k => comRow lc.1 cols (k + 1)
    locY := (List.range lc.2).map fun k => comCol lc.1 cols (k + 1) }

/-- Shallow embedding of `IdentifyPrimAutomatic.Run`.  Mirrors the source:
grayscale conversion of 3-dimensional input, Otsu threshold of the whole
grayscale image constrained to the configured range, then `runBody`.  The
result is `none` exactly when the threshold estimator has no data to work
on. -/
def Run (image : Image) (mask : List Bool) (cfg : Config) : Option RunResult :=
  (Otsu (grayData image) cfg.minThreshold cfg.maxThreshold).map
    (runBody image mask)

/-! ### Basic lemmas about `getd` -/

theorem getd_nil {α : Type} (d : α) (q : Nat) : getd d [] q = d := rfl

theorem getd_of_length_le {α : Type} (d : α) :
    ∀ (l : List α) (q : Nat), l.length ≤ q → getd d l q = d := by
  intro l
  induction l with
  | nil => intro q _; rfl
  | cons x xs ih =>
    intro q hq
    match q with
    | 0 => simp at hq
    | q + 1 => exact ih q (by simpa using hq)

theorem getd_set {α : Type} (d a : α) :
    ∀ (l : List α) (n q : Nat),
      getd d (l.set n a) q =
        if q = n ∧ n < l.length then a else getd d l q := by
  intro l
  induction l with
  | nil => intro n q; simp [List.set]
  | cons x xs ih =>
    intro n q
    match n, q with
    | 0, 0 => simp [List.set, getd]
    | 0, q + 1 => simp [List.set, getd]
    | n + 1, 0 => simp [List.set, getd]
    | n + 1, q + 1 =>
      show getd d (xs.set n a) q =
        if q + 1 = n + 1 ∧ n + 1 < xs.length + 1 then a else getd d xs q
      rw [ih n q]
      by_cases h : q = n ∧ n < xs.length
      · rw [if_pos h, if_pos ⟨by omega, by omega⟩]
      · rw [if_neg h, if_neg fun hc => h ⟨by omega, by omega⟩]

theorem getd_replicate (n q : Nat) : getd 0 (List.replicate n 0) q = 0 := by
  induction n generalizing q with
  | zero => rfl
  | succ n ih =>
    match q with
    | 0 => rfl
    | q + 1 => exact ih q

theorem getd_mem {α : Type} (d : α) :
    ∀ (l : List α) (q : Nat), q < l.length → getd d l q ∈ l := by
  intro l
  induction l with
  | nil => intro q hq; simp at hq
  | cons x xs ih =>
    intro q hq
    match q with
    | 0 => exact List.mem_cons_self x xs
    | q + 1 => exact List.mem_cons_of_mem x (ih q (by simpa using hq))

theorem mem_getd {α : Type} (d : α) :
    ∀ (l : List α) (a : α), a ∈ l → ∃ q, q < l.length ∧ getd d l q = a := by
  intro l
  induction l with
  | nil => intro a ha; simp at ha
  | cons x xs ih =>
    intro a ha
    rcases List.mem_cons.mp ha with h | h
    · exact ⟨0, by simp, h.symm⟩
    · obtain ⟨q, hq, he⟩ := ih a h
      exact ⟨q + 1, by simpa using hq, he⟩

theorem getd_map_range {α : Type} (d : α) :
    ∀ (n : Nat) (f : Nat → α) (q : Nat), q < n →
      getd d ((List.range n).map f) q = f q := by
  intro n
  induction n with
  | zero => intro f q hq; omega
  | succ n ih =>
    intro f q hq
    rw [List.range_succ_eq_map]
    match q with
    | 0 => rfl
    | q + 1 =>
      show getd d ((List.map (· + 1) (List.range n)).map f) q = f (q + 1)
      rw [List.map_map]
      exact ih (f ∘ (· + 1)) q (by omega)

/-! ### Invariants of the flood fill -/

theorem floodFill_succ_cons (b : List Bool) (rows cols lab fuel : Nat)
    (p : Nat × Nat) (stk : List (Nat × Nat)) (m : List Nat) :
    floodFill b rows cols lab (fuel + 1) (p :: stk) m =
      if getd false b (idx cols p) = true ∧ getd 0 m (idx cols p) = 0 then
        floodFill b rows cols lab fuel (neighbors rows cols p ++ stk)
          (m.set (idx cols p) lab)
      else
        floodFill b rows cols lab fuel stk m := rfl

theorem floodFill_length (b : List Bool) (rows cols lab : Nat) :
    ∀ (fuel : Nat) (stk : List (Nat × Nat)) (m : List Nat),
      (floodFill b rows cols lab fuel stk m).length = m.length := by
  intro fuel
  induction fuel with
  | zero => intro stk m; rfl
  | succ fuel ih =>
    intro stk m
    match stk with
    | [] => rfl
    | p :: stk =>
      rw [floodFill_succ_cons]
      by_cases hc : getd false b (idx cols p) = true ∧ getd 0 m (idx cols p) = 0
      · rw [if_pos hc, ih]; exact List.length_set m (idx cols p) lab
      · rw [if_neg hc]; exact ih stk m

theorem floodFill_getd (b : List Bool) (rows cols lab : Nat) (hlab : lab ≠ 0) :
    ∀ (fuel : Nat) (stk : List (Nat × Nat)) (m : List Nat) (q : Nat),
      getd 0 (floodFill b rows cols lab fuel stk m) q = getd 0 m q ∨
        (getd 0 (floodFill b rows cols lab fuel stk m) q = lab ∧
          getd 0 m q = 0 ∧ getd false b q = true) := by
  intro fuel
  induction fuel with
  | zero => intro stk m q; left; rfl
  | succ fuel ih =>
    intro stk m q
    match stk with
    | [] => left; rfl
    | p :: stk =>
      rw [floodFill_succ_cons]
      by_cases hc : getd false b (idx cols p) = true ∧ getd 0 m (idx cols p) = 0
      · rw [if_pos hc]
        rcases ih (neighbors rows cols p ++ stk) (m.set (idx cols p) lab) q with h | ⟨h1, h2, h3⟩
        · rw [getd_set] at h
          by_cases hq : q = idx cols p ∧ idx cols p < m.length
          · rw [if_pos hq] at h
            right
            exact ⟨h, hq.1 ▸ hc.2, hq.1 ▸ hc.1⟩
          · rw [if_neg hq] at h; left; exact h
        · rw [getd_set] at h2
          by_cases hq : q = idx cols p ∧ idx cols p < m.length
          · rw [if_pos hq] at h2; exact absurd h2 hlab
          · rw [if_neg hq] at h2; right; exact ⟨h1, h2, h3⟩
      · rw [if_neg hc]; exact ih stk m q

theorem floodFill_preserve (b : List Bool) (rows cols lab : Nat) (hlab : lab ≠ 0)
    (fuel : Nat) (stk : List (Nat × Nat)) (m : List Nat) (q : Nat)
    (h : getd 0 m q ≠ 0) :
    getd 0 (floodFill b rows cols lab fuel stk m) q = getd 0 m q := by
  rcases floodFill_getd b rows cols lab hlab fuel stk m q with h1 | ⟨_, h2, _⟩
  · exact h1
  · exact absurd h2 h

theorem floodFill_background (b : List Bool) (rows cols lab : Nat) (hlab : lab ≠ 0)
    (fuel : Nat) (stk : List (Nat × Nat)) (m : List Nat) (q : Nat)
    (h : getd false b q = false) :
    getd 0 (floodFill b rows cols lab fuel stk m) q = getd 0 m q := by
  rcases floodFill_getd b rows cols lab hlab fuel stk m q with h1 | ⟨_, _, h3⟩
  · exact h1
  · rw [h] at h3; exact absurd h3 (by simp)

theorem floodFill_head (b : List Bool) (rows cols lab : Nat) (hlab : lab ≠ 0)
    (fuel : Nat) (p : Nat × Nat) (stk : List (Nat × Nat)) (m : List Nat)
    (hb : getd false b (idx cols p) = true) (hm : getd 0 m (idx cols p) = 0)
    (hlen : idx cols p < m.length) :
    getd 0 (floodFill b rows cols lab (fuel + 1) (p :: stk) m) (idx cols p) = lab := by
  rw [floodFill_succ_cons, if_pos ⟨hb, hm⟩]
  have hset : getd 0 (m.set (idx cols p) lab) (idx cols p) = lab := by
    rw [getd_set, if_pos ⟨rfl, hlen⟩]
  rcases floodFill_getd b rows cols lab hlab fuel (neighbors rows cols p ++ stk)
      (m.set (idx cols p) lab) (idx cols p) with h | ⟨h1, _, _⟩
  · rw [h, hset]
  · exact h1

/-! ### Invariants of the labeling scan -/

theorem labelScan_cons (b : List Bool) (rows cols q : Nat) (qs : List Nat)
    (m : List Nat) (cnt : Nat) :
    labelScan b rows cols (q :: qs) m cnt =
      if getd false b q = true ∧ getd 0 m q = 0 then
        labelScan b rows cols qs
          (floodFill b rows cols (cnt + 1) (4 * (rows * cols) + 5)
            [(q / cols, q % cols)] m)
          (cnt + 1)
      else
        labelScan b rows cols qs m cnt := rfl

theorem idx_div_mod (cols q : Nat) : idx cols (q / cols, q % cols) = q := by
  show q / cols * cols + q % cols = q
  rw [Nat.mul_comm]
  exact Nat.div_add_mod q cols

theorem labelScan_length (b : List Bool) (rows cols : Nat) :
    ∀ (qs : List Nat) (m : List Nat) (cnt : Nat),
      (labelScan b rows cols qs m cnt).1.length = m.length := by
  intro qs
  induction qs with
  | nil => intro m cnt; rfl
  | cons q qs ih =>
    intro m cnt
    rw [labelScan_cons]
    by_cases hc : getd false b q = true ∧ getd 0 m q = 0
    · rw [if_pos hc, ih, floodFill_length]
    · rw [if_neg hc]; exact ih m cnt

theorem labelScan_count_le (b : List Bool) (rows cols : Nat) :
    ∀ (qs : List Nat) (m : List Nat) (cnt : Nat),
      cnt ≤ (labelScan b rows cols qs m cnt).2 := by
  intro qs
  induction qs with
  | nil => intro m cnt; exact Nat.le_refl cnt
  | cons q qs ih =>
    intro m cnt
    rw [labelScan_cons]
    by_cases hc : getd false b q = true ∧ getd 0 m q = 0
    · rw [if_pos hc]
      exact Nat.le_trans (Nat.le_succ cnt) (ih _ (cnt + 1))
    · rw [if_neg hc]; exact ih m cnt

theorem labelScan_preserve (b : List Bool) (rows cols : Nat) :
    ∀ (qs : List Nat) (m : List Nat) (cnt : Nat) (q : Nat),
      getd 0 m q ≠ 0 →
      getd 0 (labelScan b rows cols qs m cnt).1 q = getd 0 m q := by
  intro qs
  induction qs with
  | nil => intro m cnt q _; rfl
  | cons q0 qs ih =>
    intro m cnt q hq
    rw [labelScan_cons]
    by_cases hc : getd false b q0 = true ∧ getd 0 m q0 = 0
    · rw [if_pos hc]
      have hf := floodFill_preserve b rows cols (cnt + 1) (Nat.succ_ne_zero cnt)
        (4 * (rows * cols) + 5) [(q0 / cols, q0 % cols)] m q hq
      rw [ih _ (cnt + 1) q (by rw [hf]; exact hq), hf]
    · rw [if_neg hc]; exact ih m cnt q hq

theorem labelScan_background (b : List Bool) (rows cols : Nat) :
    ∀ (qs : List Nat) (m : List Nat) (cnt : Nat) (q : Nat),
      getd false b q = false →
      getd 0 (labelScan b rows cols qs m cnt).1 q = getd 0 m q := by
  intro qs
  induction qs with
  | nil => intro m cnt q _; rfl
  | cons q0 qs ih =>
    intro m cnt q hq
    rw [labelScan_cons]
    by_cases hc : getd false b q0 = true ∧ getd 0 m q0 = 0
    · rw [if_pos hc]
      have hf := floodFill_background b rows cols (cnt + 1) (Nat.succ_ne_zero cnt)
        (4 * (rows * cols) + 5) [(q0 / cols, q0 % cols)] m q hq
      rw [ih _ (cnt + 1) q hq, hf]
    · rw [if_neg hc]; exact ih m cnt q hq

theorem labelScan_le (b : List Bool) (rows cols : Nat) :
    ∀ (qs : List Nat) (m : List Nat) (cnt : Nat),
      (∀ q, getd 0 m q ≤ cnt) →
      ∀ q, getd 0 (labelScan b rows cols qs m cnt).1 q ≤
        (labelScan b rows cols qs m cnt).2 := by
  intro qs
  induction qs with
  | nil => intro m cnt h q; exact h q
  | cons q0 qs ih =>
    intro m cnt h q
    rw [labelScan_cons]
    by_cases hc : getd false b q0 = true ∧ getd 0 m q0 = 0
    · rw [if_pos hc]
      refine ih _ (cnt + 1) (fun q1 => ?_) q
      rcases floodFill_getd b rows cols (cnt + 1) (Nat.succ_ne_zero cnt)
          (4 * (rows * cols) + 5) [(q0 / cols, q0 % cols)] m q1 with h1 | ⟨h1, _, _⟩
      · rw [h1]; exact Nat.le_succ_of_le (h q1)
      · rw [h1]
    · rw [if_neg hc]; exact ih m cnt h q

theorem labelScan_presence (b : List Bool) (rows cols : Nat) :
    ∀ (qs : List Nat) (m : List Nat) (cnt : Nat),
      (∀ q ∈ qs, q < m.length) →
      (∀ k, 1 ≤ k → k ≤ cnt → ∃ q, q < m.length ∧ getd 0 m q = k) →
      ∀ k, 1 ≤ k → k ≤ (labelScan b rows cols qs m cnt).2 →
        ∃ q, q < m.length ∧ getd 0 (labelScan b rows cols qs m cnt).1 q = k := by
  intro qs
  induction qs with
  | nil => intro m cnt _ hpre k hk1 hk2; exact hpre k hk1 hk2
  | cons q0 qs ih =>
    intro m cnt hin hpre k hk1 hk2
    rw [labelScan_cons] at hk2 ⊢
    by_cases hc : getd false b q0 = true ∧ getd 0 m q0 = 0
    · rw [if_pos hc] at hk2 ⊢
      have hq0 : q0 < m.length := hin q0 (List.mem_cons_self q0 qs)
      have hlen : (floodFill b rows cols (cnt + 1) (4 * (rows * cols) + 5)
          [(q0 / cols, q0 % cols)] m).length = m.length :=
        floodFill_length b rows cols (cnt + 1) _ _ m
      refine (ih _ (cnt + 1) (fun q hq => by rw [hlen]; exact hin q (List.mem_cons_of_mem q0 hq))
        (fun k1 hk11 hk12 => ?_) k hk1 hk2).imp fun q hq => ⟨by rw [← hlen]; exact hq.1, hq.2⟩
      rcases Nat.lt_or_ge k1 (cnt + 1) with hlt | hge
      · obtain ⟨q, hq, he⟩ := hpre k1 hk11 (by omega)
        refine ⟨q, by rw [hlen]; exact hq, ?_⟩
        rw [floodFill_preserve b rows cols (cnt + 1) (Nat.succ_ne_zero cnt) _ _ m q
          (by rw [he]; omega), he]
      · have hk1e : k1 = cnt + 1 := by omega
        refine ⟨q0, by rw [hlen]; exact hq0, ?_⟩
        subst hk1e
        have := floodFill_head b rows cols (cnt + 1) (Nat.succ_ne_zero cnt)
          (4 * (rows * cols) + 4) (q0 / cols, q0 % cols) [] m
          (by rw [idx_div_mod]; exact hc.1) (by rw [idx_div_mod]; exact hc.2)
          (by rw [idx_div_mod]; exact hq0)
        rw [idx_div_mod] at this
        exact this
    · rw [if_neg hc] at hk2 ⊢; exact ih m cnt
        (fun q hq => hin q (List.mem_cons_of_mem q0 hq)) hpre k hk1 hk2

theorem labelScan_noop (b : List Bool) (rows cols : Nat)
    (hb : ∀ q, getd false b q = false) :
    ∀ (qs : List Nat) (m : List Nat) (cnt : Nat),
      labelScan b rows cols qs m cnt = (m, cnt) := by
  intro qs
  induction qs with
  | nil => intro m cnt; rfl
  | cons q0 qs ih =>
    intro m cnt
    rw [labelScan_cons, if_neg (fun hc => by rw [hb q0] at hc; exact absurd hc.1 (by simp))]
    exact ih m cnt

/-! ### Properties of the connected-component labeling -/

theorem ndimageLabel_length (b : List Bool) (rows cols : Nat) :
    (ndimageLabel b rows cols).1.length = rows * cols := by
  show (labelScan b rows cols _ _ 0).1.length = rows * cols
  rw [labelScan_length]
  exact List.length_replicate (rows * cols) 0

theorem ndimageLabel_le (b : List Bool) (rows cols : Nat) (q : Nat) :
    getd 0 (ndimageLabel b rows cols).1 q ≤ (ndimageLabel b rows cols).2 :=
  labelScan_le b rows cols (List.range (rows * cols))
    (List.replicate (rows * cols) 0) 0
    (fun q1 => by rw [getd_replicate]) q

theorem ndimageLabel_presence (b : List Bool) (rows cols : Nat) (k : Nat)
    (hk1 : 1 ≤ k) (hk2 : k ≤ (ndimageLabel b rows cols).2) :
    ∃ q, q < rows * cols ∧ getd 0 (ndimageLabel b rows cols).1 q = k := by
  have := labelScan_presence b rows cols (List.range (rows * cols))
    (List.replicate (rows * cols) 0) 0
    (fun q hq => by
      rw [List.length_replicate]; exact List.mem_range.mp hq)
    (fun k1 hk11 hk12 => by omega) k hk1 hk2
  simpa [List.length_replicate] using this

theorem ndimageLabel_background (b : List Bool) (rows cols : Nat) (q : Nat)
    (h : getd false b q = false) :
    getd 0 (ndimageLabel b rows cols).1 q = 0 := by
  show getd 0 (labelScan b rows cols _ _ 0).1 q = 0
  rw [labelScan_background b rows cols _ _ 0 q h, getd_replicate]

theorem ndimageLabel_all_false (b : List Bool) (rows cols : Nat)
    (h : ∀ q, getd false b q = false) :
    ndimageLabel b rows cols = (List.replicate (rows * cols) 0, 0) :=
  labelScan_noop b rows cols h _ _ 0

/-! ### Properties of the threshold estimator -/

theorem insertQ_length (x : ℚ) : ∀ (l : List ℚ), (insertQ x l).length = l.length + 1 := by
  intro l
  induction l with
  | nil => rfl
  | cons y ys ih =>
    show (if x ≤ y then x :: y :: ys else y :: insertQ x ys).length = ys.length + 1 + 1
    by_cases h : x ≤ y
    · rw [if_pos h]; rfl
    · rw [if_neg h]; show (insertQ x ys).length + 1 = ys.length + 1 + 1; rw [ih]

theorem sortQ_length (l : List ℚ) : (sortQ l).length = l.length := by
  induction l with
  | nil => rfl
  | cons x xs ih =>
    show (insertQ x (sortQ xs)).length = xs.length + 1
    rw [insertQ_length, ih]

theorem mem_insertQ (x : ℚ) :
    ∀ (l : List ℚ) (y : ℚ), y ∈ insertQ x l ↔ y = x ∨ y ∈ l := by
  intro l
  induction l with
  | nil => intro y; simp [insertQ]
  | cons z zs ih =>
    intro y
    show y ∈ (if x ≤ z then x :: z :: zs else z :: insertQ x zs) ↔ _
    by_cases h : x ≤ z
    · rw [if_pos h]; simp
    · rw [if_neg h]
      simp only [List.mem_cons, ih]
      tauto

theorem mem_sortQ (l : List ℚ) (y : ℚ) : y ∈ sortQ l ↔ y ∈ l := by
  induction l with
  | nil => simp [sortQ]
  | cons x xs ih =>
    show y ∈ insertQ x (sortQ xs) ↔ _
    rw [mem_insertQ, ih]
    simp

/-- The threshold estimator succeeds exactly on non-degenerate data:
whenever the image has two distinct intensities, a threshold is
produced. -/
theorem otsuRawValue_isSome (data : List ℚ)
    (h : ∃ x ∈ data, ∃ y ∈ data, x ≠ y) :
    (otsuRawValue data).isSome = true := by
  obtain ⟨x, hx, y, hy, hxy⟩ := h
  unfold otsuRawValue
  match he : sortQ data with
  | [] =>
    have hx1 : x ∈ sortQ data := (mem_sortQ data x).mpr hx
    rw [he] at hx1
    simp at hx1
  | h0 :: xs =>
    have hall : ¬ (xs.all fun y1 => y1 == h0) = true := by
      intro hall
      have hcst : ∀ z, z ∈ sortQ data → z = h0 := by
        intro z hz
        rw [he] at hz
        rcases List.mem_cons.mp hz with h1 | h1
        · exact h1
        · exact beq_iff_eq.mp (List.all_eq_true.mp hall z h1)
      exact hxy ((hcst x ((mem_sortQ data x).mpr hx)).trans
        (hcst y ((mem_sortQ data y).mpr hy)).symm)
    show (if xs.all fun y1 => y1 == h0 then none
      else some ((otsuGo (xs.length + 1) (h0 + xs.sum) xs 1 h0 (-1, h0)).2)).isSome = true
    rw [if_neg hall]
    rfl

/-- The degenerate path of the modelled estimator: on a flat image (all
intensities equal — "no usable histogram") the result is the explicit
failure `none`, the spec's `DegenerateImageError`. -/
theorem otsuRawValue_flat (data : List ℚ) (c : ℚ) (h : ∀ x ∈ data, x = c) :
    otsuRawValue data = none := by
  unfold otsuRawValue
  match he : sortQ data with
  | [] => rfl
  | h0 :: xs =>
    have hall : (xs.all fun y1 => y1 == h0) = true := by
      rw [List.all_eq_true]
      intro z hz
      have hz1 : z = c := h z ((mem_sortQ data z).mp (by rw [he]; exact List.mem_cons_of_mem h0 hz))
      have h01 : h0 = c := h h0 ((mem_sortQ data h0).mp (by rw [he]; exact List.mem_cons_self h0 xs))
      rw [beq_iff_eq, hz1, h01]
    show (if xs.all fun y1 => y1 == h0 then none
      else some ((otsuGo (xs.length + 1) (h0 + xs.sum) xs 1 h0 (-1, h0)).2)) = none
    rw [if_pos hall]

theorem Otsu_isSome (data : List ℚ) (lo hi : ℚ)
    (h : ∃ x ∈ data, ∃ y ∈ data, x ≠ y) :
    (Otsu data lo hi).isSome = true := by
  unfold Otsu
  have hs := otsuRawValue_isSome data h
  match he : otsuRawValue data with
  | some v => rfl
  | none => rw [he] at hs; exact absurd hs (by simp)

theorem clampThreshold_mem (t lo hi : ℚ) (h : lo ≤ hi) :
    lo ≤ clampThreshold t lo hi ∧ clampThreshold t lo hi ≤ hi := by
  unfold clampThreshold
  by_cases h1 : t < lo
  · rw [if_pos h1]; exact ⟨le_refl lo, h⟩
  · rw [if_neg h1]
    by_cases h2 : hi < t
    · rw [if_pos h2]; exact ⟨h, le_refl hi⟩
    · rw [if_neg h2]; exact ⟨le_of_not_lt h1, le_of_not_lt h2⟩

theorem clampThreshold_below (t lo hi : ℚ) (h : t < lo) :
    clampThreshold t lo hi = lo := by
  unfold clampThreshold; rw [if_pos h]

theorem clampThreshold_above (t lo hi : ℚ) (hlh : lo ≤ hi) (h : hi < t) :
    clampThreshold t lo hi = hi := by
  unfold clampThreshold
  rw [if_neg (by push_neg; exact le_trans hlh (le_of_lt h)), if_pos h]

/-! ### Helpers for reasoning about `Run` -/

theorem Run_eq_some_iff (image : Image) (mask : List Bool) (cfg : Config)
    (res : RunResult) :
    Run image mask cfg = some res ↔
      ∃ t, Otsu (grayData image) cfg.minThreshold cfg.maxThreshold = some t ∧
        res = runBody image mask t := by
  unfold Run
  match ho : Otsu (grayData image) cfg.minThreshold cfg.maxThreshold with
  | none => simp
  | some t => simp [eq_comm]

theorem runBinary_getd (image : Image) (mask : List Bool) (t : ℚ) (q : Nat) :
    getd false (runBinary image mask t) q =
      if q < grayRows image * grayCols image then
        decide (t ≤ getd 0 (grayData image) q) && getd false mask q
      else false := by
  unfold runBinary
  by_cases h : q < grayRows image * grayCols image
  · rw [if_pos h, getd_map_range false _ _ q h]
  · rw [if_neg h, getd_of_length_le]
    rw [List.length_map, List.length_range]
    omega

theorem runBinary_mask_false (image : Image) (mask : List Bool) (t : ℚ) (q : Nat)
    (h : getd false mask q = false) :
    getd false (runBinary image mask t) q = false := by
  rw [runBinary_getd]
  by_cases hq : q < grayRows image * grayCols image
  · rw [if_pos hq, h, Bool.and_false]
  · rw [if_neg hq]

theorem runBody_labeled (image : Image) (mask : List Bool) (t : ℚ) :
    (runBody image mask t).labeled =
      (ndimageLabel (runBinary image mask t) (grayRows image) (grayCols image)).1 := rfl

theorem runBody_count (image : Image) (mask : List Bool) (t : ℚ) :
    (runBody image mask t).count =
      (ndimageLabel (runBinary image mask t) (grayRows image) (grayCols image)).2 := rfl

theorem runBody_threshold (image : Image) (mask : List Bool) (t : ℚ) :
    (runBody image mask t).threshold = t := rfl

theorem runBody_countMeas (image : Image) (mask : List Bool) (t : ℚ) :
    (runBody image mask t).countMeas =
      (((ndimageLabel (runBinary image mask t) (grayRows image) (grayCols image)).2 : Nat) : ℚ) := rfl

theorem runBody_locX (image : Image) (mask : List Bool) (t : ℚ) :
    (runBody image mask t).locX =
      (List.range (ndimageLabel (runBinary image mask t) (grayRows image) (grayCols image)).2).map
        fun k => comRow
          (ndimageLabel (runBinary image mask t) (grayRows image) (grayCols image)).1
          (grayCols image) (k + 1) := rfl

theorem runBody_locY (image : Image) (mask : List Bool) (t : ℚ) :
    (runBody image mask t).locY =
      (List.range (ndimageLabel (runBinary image mask t) (grayRows image) (grayCols image)).2).map
        fun k => comCol
          (ndimageLabel (runBinary image mask t) (grayRows image) (grayCols image)).1
          (grayCols image) (k + 1) := rfl

/-- The set of positive labels of the produced label map is exactly the
contiguous range `1 .. object_count`. -/
theorem ndimageLabel_positives (b : List Bool) (rows cols : Nat) :
    (ndimageLabel b rows cols).1.toFinset.erase 0 =
      Finset.Icc 1 (ndimageLabel b rows cols).2 := by
  ext k
  simp only [Finset.mem_erase, List.mem_toFinset, Finset.mem_Icc]
  constructor
  · rintro ⟨hk0, hkmem⟩
    obtain ⟨q, hq, he⟩ := mem_getd 0 _ k hkmem
    exact ⟨by omega, he ▸ ndimageLabel_le b rows cols q⟩
  · rintro ⟨hk1, hk2⟩
    obtain ⟨q, hq, he⟩ := ndimageLabel_presence b rows cols k hk1 hk2
    refine ⟨by omega, ?_⟩
    have hlen : q < (ndimageLabel b rows cols).1.length := by
      rw [ndimageLabel_length]; exact hq
    have hmem := getd_mem 0 _ q hlen
    rwa [he] at hmem

theorem list_range_map_sum (f : Nat → ℚ) (n : Nat) :
    ((List.range n).map f).sum = ∑ k ∈ Finset.range n, f k := by
  induction n with
  | zero => rfl
  | succ n ih =>
    rw [List.range_succ, List.map_append, List.sum_append, Finset.sum_range_succ, ih]
    simp

/-! ### Fixtures for concrete checks -/

/-- A typical configuration: size range 10..40, threshold range [0, 1],
correction factor 1. -/
def cfgA : Config := ⟨10, 40, true, false, true, 1, 0, 1, true⟩

/-- A configuration whose threshold range is [0, 1/2]. -/
def cfgB : Config := ⟨10, 40, true, false, true, 1, 0, 1/2, true⟩

/-- The configuration of the size-exclusion scenario: `exclude_by_size`
enabled with diameter range [10, 50]. -/
def cfgS : Config := ⟨10, 50, true, false, false, 1, 0, 1, true⟩

/-! ### The claims -/

/-- C1: for every image and mask, in every label map produced by `Run`
(the segmentation attached to the object set), every pixel at a position
where the mask is false has label 0. -/
theorem run_mask_false_label_zero (image : Image) (mask : List Bool)
    (cfg : Config) (q : Nat) (h : getd false mask q = false) :
    (Option.map (fun r => getd 0 r.labeled q) (Run image mask cfg)).getD 0 = 0 := by
  match hr : Run image mask cfg with
  | none => rfl
  | some res =>
    obtain ⟨t, _, hres⟩ := (Run_eq_some_iff image mask cfg res).mp hr
    subst hres
    show getd 0 (runBody image mask t).labeled q = 0
    rw [runBody_labeled]
    exact ndimageLabel_background _ _ _ q (runBinary_mask_false image mask t q h)

/-- Witness for C1 at a concrete image: the pixel at flat index 1 is
masked out and its label is 0. -/
theorem run_mask_false_label_zero_witness :
    getd false [true, false] 1 = false ∧
    (Option.map (fun r => getd 0 r.labeled 1)
      (Run (Image.twoD 1 2 [1/2, 3/4]) [true, false] cfgA)).getD 0 = 0 :=
  ⟨rfl, run_mask_false_label_zero (Image.twoD 1 2 [1/2, 3/4]) [true, false] cfgA 1 rfl⟩

/-- C2: in the final label map returned by `Run`, every pixel value is at
most the object count, and every label `1 .. count` occurs in the map
(so the positive labels are exactly the contiguous range `1 .. count`,
as `ndimageLabel_positives` states in set form). -/
theorem run_labels_contiguous (image : Image) (mask : List Bool) (cfg : Config)
    (res : RunResult) (hr : Run image mask cfg = some res) :
    (∀ v ∈ res.labeled, v ≤ res.count) ∧
      (∀ k, 1 ≤ k → k ≤ res.count → k ∈ res.labeled) ∧
      res.labeled.toFinset.erase 0 = Finset.Icc 1 res.count := by
  obtain ⟨t, _, hres⟩ := (Run_eq_some_iff image mask cfg res).mp hr
  subst hres
  rw [runBody_labeled, runBody_count]
  refine ⟨fun v hv => ?_, fun k hk1 hk2 => ?_, ndimageLabel_positives _ _ _⟩
  · obtain ⟨q, hq, he⟩ := mem_getd 0 _ v hv
    exact he ▸ ndimageLabel_le _ _ _ q
  · obtain ⟨q, hq, he⟩ := ndimageLabel_presence _ _ _ k hk1 hk2
    have hlen : q < (ndimageLabel (runBinary image mask t) (grayRows image)
        (grayCols image)).1.length := by
      rw [ndimageLabel_length]; exact hq
    have hmem := getd_mem 0 _ q hlen
    rwa [he] at hmem

/-- Witness for C2 on a concrete two-object image. -/
theorem run_labels_contiguous_witness :
    Run (Image.twoD 1 3 [3/4, 1/8, 7/8]) [true, true, true] cfgA =
      some ((Run (Image.twoD 1 3 [3/4, 1/8, 7/8]) [true, true, true] cfgA).iget) ∧
    (∀ v ∈ ((Run (Image.twoD 1 3 [3/4, 1/8, 7/8]) [true, true, true] cfgA).iget).labeled,
      v ≤ ((Run (Image.twoD 1 3 [3/4, 1/8, 7/8]) [true, true, true] cfgA).iget).count) :=
  ⟨by decide!,
    (run_labels_contiguous (Image.twoD 1 3 [3/4, 1/8, 7/8]) [true, true, true] cfgA
      ((Run (Image.twoD 1 3 [3/4, 1/8, 7/8]) [true, true, true] cfgA).iget)
      (by decide!)).1⟩

/-- C3 counterexample: two images that agree on every mask-true pixel
(index 0; index 1 is masked out) produce different thresholds, because
`Run` hands the whole image — not the masked pixels — to the threshold
estimator.  The thresholds are 1/2 and 9/10. -/
theorem run_threshold_mask_dependent_cex :
    getd 0 [(1:ℚ)/2, 1/10] 0 = getd 0 [(1:ℚ)/2, 9/10] 0 ∧
    getd false [true, false] 1 = false ∧
    (Run (Image.twoD 1 2 [1/2, 1/10]) [true, false] cfgA).map (fun r => r.threshold) ≠
      (Run (Image.twoD 1 2 [1/2, 9/10]) [true, false] cfgA).map (fun r => r.threshold) :=
  ⟨by decide!, rfl, by decide!⟩

/-- C3 amended: the threshold is a statistic of the whole image and
ignores the mask entirely — the same image with any two masks yields the
same threshold. -/
theorem run_threshold_mask_independent (image : Image) (mask1 mask2 : List Bool)
    (cfg : Config) :
    (Run image mask1 cfg).map (fun r => r.threshold) =
      (Run image mask2 cfg).map (fun r => r.threshold) := by
  unfold Run
  match ho : Otsu (grayData image) cfg.minThreshold cfg.maxThreshold with
  | none => rfl
  | some t => rfl

/-- C4 counterexample: with an all-false mask (zero valid pixels) `Run`
does not fail — it returns a result, whose threshold (3/4) was computed
from the masked-out pixels, and proceeds to an empty segmentation. -/
theorem run_empty_mask_cex :
    (Run (Image.twoD 2 2 [1/4, 1/4, 1/4, 3/4]) [false, false, false, false] cfgA).isSome
      = true ∧
    (Run (Image.twoD 2 2 [1/4, 1/4, 1/4, 3/4]) [false, false, false, false] cfgA).map
      (fun r => (r.count, r.threshold)) = (some (0, 3/4) : Option (Nat × ℚ)) :=
  ⟨by decide!, by decide!⟩

/-- C4 amended: when the mask selects zero valid pixels but the unmasked
image is itself non-degenerate (it has two distinct intensities, so the
threshold estimator — which never sees the mask — has a usable
histogram), `Run` succeeds anyway: the threshold is computed from the
masked-out pixels, and the resulting segmentation is empty (count 0, all
labels 0). -/
theorem run_empty_mask_succeeds (image : Image) (mask : List Bool) (cfg : Config)
    (hne : ∃ x ∈ grayData image, ∃ y ∈ grayData image, x ≠ y)
    (hmask : ∀ q, getd false mask q = false) :
    (Run image mask cfg).map (fun r => r.count) = some 0 ∧
      ∀ q, (Run image mask cfg).map (fun r => getd 0 r.labeled q) = some 0 := by
  have hsome := Otsu_isSome (grayData image) cfg.minThreshold cfg.maxThreshold hne
  match ho : Otsu (grayData image) cfg.minThreshold cfg.maxThreshold with
  | none => rw [ho] at hsome; exact absurd hsome (by simp)
  | some t =>
    have hr : Run image mask cfg = some (runBody image mask t) := by
      unfold Run; rw [ho]; rfl
    rw [hr]
    have hlab := ndimageLabel_all_false (runBinary image mask t)
      (grayRows image) (grayCols image)
      (fun q => runBinary_mask_false image mask t q (hmask q))
    constructor
    · show some (runBody image mask t).count = some 0
      rw [runBody_count, hlab]
    · intro q
      show some (getd 0 (runBody image mask t).labeled q) = some 0
      rw [runBody_labeled, hlab]
      show some (getd 0 (List.replicate (grayRows image * grayCols image) 0) q) = some 0
      rw [getd_replicate]

/-- Witness for the amended C4 at a concrete non-flat image with an
all-false mask. -/
theorem run_empty_mask_succeeds_witness :
    (∃ x ∈ grayData (Image.twoD 2 2 [1/4, 1/4, 1/4, 3/4]),
      ∃ y ∈ grayData (Image.twoD 2 2 [1/4, 1/4, 1/4, 3/4]), x ≠ y) ∧
    (Run (Image.twoD 2 2 [1/4, 1/4, 1/4, 3/4]) [false, false, false, false] cfgA).map
      (fun r => r.count) = some 0 :=
  ⟨by decide!,
    (run_empty_mask_succeeds (Image.twoD 2 2 [1/4, 1/4, 1/4, 3/4])
      [false, false, false, false] cfgA (by decide!)
      (fun q => by
        match q with
        | 0 => rfl
        | 1 => rfl
        | 2 => rfl
        | 3 => rfl
        | n + 4 => rfl)).1⟩

/-- A 9 × 13 synthetic binary image with two objects separated by an empty
column: a 3 × 3 square (rows 0-2, cols 0-2; area 9, equivalent diameter
`sqrt(36 / pi)` which is about 3.4, far below the minimum diameter 10 of
`cfgS`) and a 9 × 9 square (cols 4-12 of every row; area 81, equivalent
diameter about 10.2, inside [10, 50]). -/
def sizeCexImage : List ℚ :=
  (List.range (9 * 13)).map fun q =>
    if 4 ≤ q % 13 ∨ (q / 13 < 3 ∧ q % 13 < 3) then 1 else 0

set_option maxRecDepth 40000 in
set_option maxHeartbeats 12000000 in
/-- C5 counterexample: with `exclude_by_size` enabled and diameter range
[10, 50], the 3 × 3 object (equivalent diameter about 3.4, outside the
range) is still present in the output — pixel (0,0) carries label 1 — and
the object count is 2, not 1: `Run` performs no size filtering at all. -/
theorem run_size_exclusion_cex :
    cfgS.excludeSize = true ∧
    (Run (Image.twoD 9 13 sizeCexImage) (List.replicate (9 * 13) true) cfgS).map
      (fun r => (r.count, getd 0 r.labeled 0)) = (some (2, 1) : Option (Nat × Nat)) :=
  ⟨rfl, by decide!⟩

/-- C5 amended: `Run` ignores the size-exclusion configuration entirely —
its output does not depend on `exclude_by_size`, `min_size` or `max_size`,
so no region is ever removed for its size. -/
theorem run_ignores_size_config (image : Image) (mask : List Bool) (cfg : Config)
    (e : Bool) (mn mx : ℚ) :
    Run image mask { cfg with excludeSize := e, minSize := mn, maxSize := mx } =
      Run image mask cfg := rfl

/-- C6: the threshold reported in the measurement record lies in
`[lower_bound, upper_bound]`, and when the raw computed threshold falls
outside that interval the reported threshold is the nearest bound. -/
theorem run_threshold_clamped (image : Image) (mask : List Bool) (cfg : Config)
    (hb : cfg.minThreshold ≤ cfg.maxThreshold) (res : RunResult) (raw : ℚ)
    (hr : Run image mask cfg = some res)
    (hraw : otsuRawValue (grayData image) = some raw) :
    cfg.minThreshold ≤ res.threshold ∧ res.threshold ≤ cfg.maxThreshold ∧
      (raw < cfg.minThreshold → res.threshold = cfg.minThreshold) ∧
      (cfg.maxThreshold < raw → res.threshold = cfg.maxThreshold) := by
  obtain ⟨t, hO, hres⟩ := (Run_eq_some_iff image mask cfg res).mp hr
  unfold Otsu at hO
  rw [hraw] at hO
  have ht : t = clampThreshold raw cfg.minThreshold cfg.maxThreshold := by
    have : some (clampThreshold raw cfg.minThreshold cfg.maxThreshold) = some t := hO
    injection this with h
    exact h.symm
  subst hres
  rw [runBody_threshold, ht]
  exact ⟨(clampThreshold_mem raw _ _ hb).1, (clampThreshold_mem raw _ _ hb).2,
    fun h => clampThreshold_below raw _ _ h,
    fun h => clampThreshold_above raw _ _ hb h⟩

/-- Witness for C6: the raw threshold 9/10 exceeds the upper bound 1/2 of
`cfgB`, and the reported threshold equals that bound. -/
theorem run_threshold_clamped_witness :
    cfgB.minThreshold ≤ cfgB.maxThreshold ∧
    cfgB.maxThreshold < (otsuRawValue (grayData (Image.twoD 1 2 [1/2, 9/10]))).iget ∧
    ((Run (Image.twoD 1 2 [1/2, 9/10]) [true, true] cfgB).iget).threshold =
      cfgB.maxThreshold :=
  ⟨by decide!, by decide!,
    (run_threshold_clamped (Image.twoD 1 2 [1/2, 9/10]) [true, true] cfgB (by decide!)
      ((Run (Image.twoD 1 2 [1/2, 9/10]) [true, true] cfgB).iget)
      ((otsuRawValue (grayData (Image.twoD 1 2 [1/2, 9/10]))).iget)
      (by decide!) (by decide!)).2.2.2 (by decide!)⟩

/-- C7: for fixed image, mask and threshold settings, the computed
threshold is monotonically non-decreasing in the correction factor —
`Run` never reads `ThresholdCorrectionFactor`, so the threshold is in
fact constant in it. -/
theorem run_threshold_monotone_correction (image : Image) (mask : List Bool)
    (cfg : Config) (c1 c2 : ℚ) (_hc : c1 ≤ c2) (r1 r2 : RunResult)
    (h1 : Run image mask { cfg with corrFactor := c1 } = some r1)
    (h2 : Run image mask { cfg with corrFactor := c2 } = some r2) :
    r1.threshold ≤ r2.threshold := by
  have e1 : Run image mask { cfg with corrFactor := c1 } = Run image mask cfg := rfl
  have e2 : Run image mask { cfg with corrFactor := c2 } = Run image mask cfg := rfl
  rw [e1] at h1
  rw [e2] at h2
  rw [h1] at h2
  injection h2 with h
  rw [h]

/-- Witness for C7 at correction factors 1/2 and 2 on a concrete image. -/
theorem run_threshold_monotone_correction_witness :
    ((1:ℚ)/2 ≤ 2) ∧
    ((Run (Image.twoD 1 2 [1/3, 2/3]) [true, true]
        { cfgA with corrFactor := 1/2 }).iget).threshold ≤
      ((Run (Image.twoD 1 2 [1/3, 2/3]) [true, true]
        { cfgA with corrFactor := 2 }).iget).threshold :=
  ⟨by decide!,
    run_threshold_monotone_correction (Image.twoD 1 2 [1/3, 2/3]) [true, true] cfgA
      (1/2) 2 (by decide!) _ _ (by decide!) (by decide!)⟩

/-- C8: segmentation is deterministic — two invocations of `Run` with
identical image, mask and configuration produce identical results (label
map, count, threshold and centroid vectors alike). -/
theorem run_deterministic (i1 i2 : Image) (m1 m2 : List Bool) (c1 c2 : Config)
    (hi : i1 = i2) (hm : m1 = m2) (hc : c1 = c2) :
    Run i1 m1 c1 = Run i2 m2 c2 := by
  subst hi; subst hm; subst hc; rfl

/-- Witness for C8 at a concrete invocation. -/
theorem run_deterministic_witness :
    Run (Image.twoD 1 2 [1/2, 3/4]) [true, true] cfgA =
      Run (Image.twoD 1 2 [1/2, 3/4]) [true, true] cfgA :=
  run_deterministic (Image.twoD 1 2 [1/2, 3/4]) (Image.twoD 1 2 [1/2, 3/4])
    [true, true] [true, true] cfgA cfgA rfl rfl rfl

/-- C9: the image-level Count measurement equals the number of distinct
positive labels of the segmentation handed to the object set; the
`Location_Center_X` / `Location_Center_Y` vectors have length equal to
the count, and the entry at index `k` is the center of mass of label
`k + 1` — the X vector holding the axis-0 (row) coordinate and the Y
vector the axis-1 (column) coordinate. -/
theorem run_count_and_centroids (image : Image) (mask : List Bool) (cfg : Config)
    (res : RunResult) (hr : Run image mask cfg = some res) :
    res.countMeas = ((res.labeled.toFinset.erase 0).card : ℚ) ∧
      res.locX.length = res.count ∧ res.locY.length = res.count ∧
      ∀ k, k < res.count →
        getd 0 res.locX k = comRow res.labeled (grayCols image) (k + 1) ∧
        getd 0 res.locY k = comCol res.labeled (grayCols image) (k + 1) := by
  obtain ⟨t, _, hres⟩ := (Run_eq_some_iff image mask cfg res).mp hr
  subst hres
  refine ⟨?_, ?_, ?_, fun k hk => ⟨?_, ?_⟩⟩
  · rw [runBody_countMeas, runBody_labeled, ndimageLabel_positives, Nat.card_Icc]
    norm_num
  · rw [runBody_locX, runBody_count, List.length_map, List.length_range]
  · rw [runBody_locY, runBody_count, List.length_map, List.length_range]
  · rw [runBody_count] at hk
    rw [runBody_locX, runBody_labeled, getd_map_range 0 _ _ k hk]
  · rw [runBody_count] at hk
    rw [runBody_locY, runBody_labeled, getd_map_range 0 _ _ k hk]

/-- Witness for C9 on a concrete one-object image: the count measurement
is 1 and the centroid vectors have one entry each. -/
theorem run_count_and_centroids_witness :
    Run (Image.twoD 1 2 [1/2, 3/4]) [true, true] cfgA =
      some ((Run (Image.twoD 1 2 [1/2, 3/4]) [true, true] cfgA).iget) ∧
    ((Run (Image.twoD 1 2 [1/2, 3/4]) [true, true] cfgA).iget).countMeas =
      (((((Run (Image.twoD 1 2 [1/2, 3/4]) [true, true] cfgA).iget).labeled.toFinset.erase
        0).card : Nat) : ℚ) :=
  ⟨by decide!,
    (run_count_and_centroids (Image.twoD 1 2 [1/2, 3/4]) [true, true] cfgA
      ((Run (Image.twoD 1 2 [1/2, 3/4]) [true, true] cfgA).iget) (by decide!)).1⟩

/-- C10 counterexample: "it does not fail" does not hold of every
3-dimensional image.  A flat multi-channel image (every pixel mean equal)
leaves the threshold estimator with no usable histogram, and `Run` fails —
the result is `none`, the propagated `DegenerateImageError` — exactly as
it would for the corresponding flat 2-D image. -/
theorem run_three_dim_flat_cex :
    Run (Image.threeD 1 2 2 [1/2, 1/2, 1/2, 1/2]) [true, true] cfgA = none := by
  decide!

/-- C10 amended: a 3-dimensional (multi-channel) image is not rejected for
its dimensionality: `Run` replaces it by the per-pixel mean over the
channel axis (sum over axis 2 divided by the channel count) and segments
that 2-D grayscale image, succeeding whenever the averaged image admits a
threshold (two distinct pixel means); only the estimator's own
degenerate-image failure remains. -/
theorem run_three_dim_mean (r c ch : Nat) (d : List ℚ) (mask : List Bool)
    (cfg : Config) (_hch : 0 < ch) :
    Run (Image.threeD r c ch d) mask cfg =
        Run (Image.twoD r c (gray3 r c ch d)) mask cfg ∧
      (∀ i j, i < r → j < c →
        getd 0 (gray3 r c ch d) (i * c + j) =
          (∑ k ∈ Finset.range ch, getd 0 d ((i * c + j) * ch + k)) / (ch : ℚ)) ∧
      ((∃ x ∈ gray3 r c ch d, ∃ y ∈ gray3 r c ch d, x ≠ y) →
        (Run (Image.threeD r c ch d) mask cfg).isSome = true) := by
  refine ⟨rfl, fun i j hi hj => ?_, fun hnd => ?_⟩
  · have hlt : i * c + j < r * c := by
      calc i * c + j < i * c + c := by omega
      _ = (i + 1) * c := by ring
      _ ≤ r * c := Nat.mul_le_mul_right c (by omega)
    unfold gray3
    rw [getd_map_range 0 (r * c) _ (i * c + j) hlt, list_range_map_sum]
  · have hsome := Otsu_isSome (grayData (Image.threeD r c ch d))
      cfg.minThreshold cfg.maxThreshold hnd
    unfold Run
    match ho : Otsu (grayData (Image.threeD r c ch d))
        cfg.minThreshold cfg.maxThreshold with
    | some t => rfl
    | none => rw [ho] at hsome; exact absurd hsome (by simp)

/-- Witness for the amended C10 on a concrete 1 × 2 × 2 image whose two
pixel means (3/8 and 1/2) differ. -/
theorem run_three_dim_mean_witness :
    (0 : Nat) < 2 ∧
    (∃ x ∈ gray3 1 2 2 [1/2, 1/4, 3/4, 1/4],
      ∃ y ∈ gray3 1 2 2 [1/2, 1/4, 3/4, 1/4], x ≠ y) ∧
    (Run (Image.threeD 1 2 2 [1/2, 1/4, 3/4, 1/4]) [true, true] cfgA).isSome = true :=
  ⟨by decide, by decide!,
    (run_three_dim_mean 1 2 2 [1/2, 1/4, 3/4, 1/4] [true, true] cfgA
      (by decide)).2.2 (by decide!)⟩
